import Mathlib

/-!
# Javelin: project-scoped quick file list — shallow embedding

Shallow embedding of `src/main.rs` of the `javelin` repository: a
per-project ordered list of file paths with a selection cursor, persisted
in a key→list store, mutated through a small set of operations
(`add_current_file`, `delete_selected_file`, `move_up`, `move_down`,
`next`, `previous`) and read back by the direct invocation path
(`open_file_by_index`).

Modelling conventions:
* The pickle database is a typed map `Store := String → Option (List String)`;
  `PickleDb::set` (with the `AutoDump` policy, which flushes on every set)
  is `storeSet`; `db.exists k` followed by `db.get(k).unwrap_or_default()`
  is a `match` on `db k`.
* `ratatui::ListState` is modelled by its `selected : Option Nat` field,
  which is the only part the program reads or writes.
* Rust `Vec::push` is `· ++ [·]`, `Vec::remove i` is `List.eraseIdx · i`,
  `Vec::swap i j` is `listSwap` (two `List.set` writes of the original
  elements), and `files.contains(&file)` is decidable membership `∈`.
* `move_down`'s guard `selected < self.files.len() - 1` uses Rust `usize`
  arithmetic, which would underflow when the list is empty; that state is
  unreachable because a selection exists only on a non-empty list (see
  `Inv`), and the embedding uses `Nat` truncated subtraction, which agrees
  with the Rust expression on every state where a selection exists and the
  list is non-empty.
* The `ZED_FILE` environment variable and the editor launcher are external
  inputs, passed as parameters (`Option String`, `String → Except String Unit`).
-/

namespace Javelin

/-- The persistent store: one record per project key, value = file list.
`none` models a key that was never created. -/
abbrev Store := String → Option (List String)

/-- Model of `PickleDb::set(key, value)`: overwrite the list stored under `k`. -/
def storeSet (db : Store) (k : String) (v : List String) : Store :=
  fun q => if q = k then some v else db q

/-- Project key as computed by `open_file_by_index` (main.rs lines 72–76):
`format!("project_{}", current_dir.to_string_lossy().replace('/', "_"))`. -/
def directProjectKey (cwd : String) : String :=
  "project_" ++ String.replace cwd "/" "_"

/-- Project key as computed by `App::new` (main.rs lines 178–182); the same
format expression as in `open_file_by_index`. -/
def sessionProjectKey (cwd : String) : String :=
  "project_" ++ String.replace cwd "/" "_"

/-- Model of `Vec::swap(i, j)`: both elements are read from the original list before
either write, so the two `List.set` writes realise a simultaneous swap. -/
def listSwap (l : List String) (i j : Nat) : List String :=
  (l.set i (l.getD j "")).set j (l.getD i "")

/-- The `App` struct (main.rs lines 138–149); `list_state` is kept as its
`selected` component. -/
structure App where
  running : Bool
  db : Store
  selected : Option Nat
  files : List String
  projectKey : String

/-- Model of `App::save_files` (lines 349–351): write the whole current list under
the project key; with the `AutoDump` policy the write is flushed before
the call returns. -/
def App.saveFiles (s : App) : App :=
  { s with db := storeSet s.db s.projectKey s.files }

/-- Model of `App::load_files` (lines 336–346): if the store has the project key,
replace `files` with the stored list and, when that list is non-empty,
select index 0. -/
def App.loadFiles (s : App) : App :=
  match s.db s.projectKey with
  | some fs => { s with files := fs, selected := if fs.isEmpty then s.selected else some 0 }
  | none => s

/-- Model of `App::new` (lines 153–194): fresh state (no selection, empty list) for
the key of the current working directory, then `load_files`. -/
def App.new (db : Store) (cwd : String) : App :=
  App.loadFiles
    { running := false, db := db, selected := none, files := [],
      projectKey := sessionProjectKey cwd }

/-- Model of `App::quit` (lines 331–333). -/
def App.quit (s : App) : App :=
  { s with running := false }

/-- Model of `App::next` (lines 354–370): advance the cursor with wraparound; no-op
on an empty list. -/
def App.next (s : App) : App :=
  if s.files.isEmpty then s
  else
    let i := match s.selected with
      | some i => if s.files.length - 1 ≤ i then 0 else i + 1
      | none => 0
    { s with selected := some i }

/-- Model of `App::previous` (lines 373–389): retreat the cursor with wraparound;
no-op on an empty list. -/
def App.previous (s : App) : App :=
  if s.files.isEmpty then s
  else
    let i := match s.selected with
      | some i => if i = 0 then s.files.length - 1 else i - 1
      | none => 0
    { s with selected := some i }

/-- Model of `App::add_current_file` (lines 392–402): read `ZED_FILE` (here the
`zedFile` parameter); if present and not already in the list, push it,
save, and select index 0 when the list now has exactly one element. -/
def App.addCurrentFile (zedFile : Option String) (s : App) : App :=
  match zedFile with
  | none => s
  | some file =>
    if file ∈ s.files then s
    else
      let s1 := App.saveFiles { s with files := s.files ++ [file] }
      if s1.files.length = 1 then { s1 with selected := some 0 } else s1

/-- Model of `App::delete_selected_file` (lines 405–418): remove the entry at the
cursor, save, then re-clamp the cursor. -/
def App.deleteSelectedFile (s : App) : App :=
  match s.selected with
  | none => s
  | some selected =>
    if selected < s.files.length then
      let s1 := App.saveFiles { s with files := s.files.eraseIdx selected }
      if s1.files.isEmpty then { s1 with selected := none }
      else if s1.files.length ≤ selected then { s1 with selected := some (s1.files.length - 1) }
      else s1
    else s

/-- Model of `App::move_down` (lines 431–439): swap the selected entry with the one
below and move the cursor with it. -/
def App.moveDown (s : App) : App :=
  match s.selected with
  | none => s
  | some selected =>
    if selected < s.files.length - 1 then
      App.saveFiles
        { s with files := listSwap s.files selected (selected + 1),
                 selected := some (selected + 1) }
    else s

/-- Model of `App::move_up` (lines 442–450): swap the selected entry with the one
above and move the cursor with it. -/
def App.moveUp (s : App) : App :=
  match s.selected with
  | none => s
  | some selected =>
    if 0 < selected then
      App.saveFiles
        { s with files := listSwap s.files selected (selected - 1),
                 selected := some (selected - 1) }
    else s

/-- The key presses `App::on_key_event` (lines 303–328) distinguishes. -/
inductive Key
  | esc
  | charQ
  | ctrlC
  | charJ
  | charK
  | charA
  | charD
  | shiftJ
  | shiftK
  | enter
  | digit (d : Nat)
  | other

/-- Model of `App::on_key_event` (lines 303–328). Launching the editor (`open_file`)
takes `&self` and does not change the state, so Enter and digit keys only
quit (digits only when `0 < d ≤ files.len()`). -/
def App.onKeyEvent (zedFile : Option String) (s : App) (key : Key) : App :=
  match key with
  | .esc => App.quit s
  | .charQ => App.quit s
  | .ctrlC => App.quit s
  | .charJ => App.next s
  | .charK => App.previous s
  | .charA => App.addCurrentFile zedFile s
  | .charD => App.deleteSelectedFile s
  | .shiftJ => App.moveDown s
  | .shiftK => App.moveUp s
  | .enter =>
    match s.selected with
    | some _ => App.quit s
    | none => s
  | .digit d => if 0 < d ∧ d ≤ s.files.length then App.quit s else s
  | .other => s

/-- The List Controller operations reachable from the session loop. -/
inductive Op
  | add (zedFile : Option String)
  | delete
  | moveUp
  | moveDown
  | next
  | prev

/-- Dispatch one controller operation. -/
def App.applyOp (s : App) : Op → App
  | .add z => App.addCurrentFile z s
  | .delete => App.deleteSelectedFile s
  | .moveUp => App.moveUp s
  | .moveDown => App.moveDown s
  | .next => App.next s
  | .prev => App.previous s

/-- A sequence of `add_current_file` calls with the given paths offered. -/
def addAll (s : App) (ps : List String) : App :=
  ps.foldl (fun t p => App.addCurrentFile (some p) t) s

/-- Selection Cursor invariant: no selection exactly on the empty list,
otherwise a valid index. -/
def Inv (s : App) : Prop :=
  match s.selected with
  | none => s.files = []
  | some i => i < s.files.length

/-- Memory/disk synchronisation: the cached list equals the stored list
(`unwrap_or_default` reads an absent key as the empty list). -/
def InSync (s : App) : Prop :=
  s.files = (s.db s.projectKey).getD []

/-- States reachable in one interactive session started from store `db`
in working directory `cwd`. -/
inductive Reachable (db : Store) (cwd : String) : App → Prop
  | init : Reachable db cwd (App.new db cwd)
  | step {s : App} (hs : Reachable db cwd s) (op : Op) :
      Reachable db cwd (App.applyOp s op)

/-- Outcome of the direct invocation path: a printed message or a launch. -/
inductive OpenOutcome
  | message (text : String)
  | launched (path : String)
deriving DecidableEq

/-- The `eprintln!` format of the out-of-range branch (lines 85–92). -/
def notFoundMsg (shown count : Nat) : String :=
  "File " ++ toString shown ++ " not found (only " ++ toString count ++ " files saved)"

/-- Model of `open_file_by_index` (lines 54–98). `dbFile = none` models a missing
database file; `launch` is the external editor spawn. Every branch of the
Rust function returns `Ok(())` except a failed spawn, whose error
propagates through `?`. The function never writes to the store, which the
result records by passing the loaded store through unchanged. -/
def openFileByIndex (dbFile : Option Store) (cwd : String) (index : Nat)
    (launch : String → Except String Unit) :
    Except String (OpenOutcome × Option Store) :=
  match dbFile with
  | none => .ok (.message "No files saved yet", none)
  | some db =>
    match db (directProjectKey cwd) with
    | none => .ok (.message "No files saved for this project", some db)
    | some files =>
      if files.length ≤ index then
        .ok (.message (notFoundMsg (index + 1) files.length), some db)
      else
        match launch (files.getD index "") with
        | .ok _ => .ok (.launched (files.getD index ""), some db)
        | .error e => .error e

/-- Process exit code of `fn main` for a direct invocation: `Ok` exits 0,
an error propagated by `color_eyre` exits non-zero. -/
def exitCode (r : Except String (OpenOutcome × Option Store)) : Nat :=
  match r with
  | .ok _ => 0
  | .error _ => 1

/-! ## Helper lemmas: `add_current_file` -/

/-- The list after an add: unchanged on a duplicate, appended otherwise. -/
lemma addCurrentFile_files (s : App) (p : String) :
    (App.addCurrentFile (some p) s).files =
      if p ∈ s.files then s.files else s.files ++ [p] := by
  by_cases h : p ∈ s.files <;>
    simp only [App.addCurrentFile, App.saveFiles, h, if_pos, if_neg, not_false_eq_true,
      ite_true, ite_false] <;>
    split <;> rfl

/-- An add that finds the path already present leaves the whole state
unchanged. -/
lemma addCurrentFile_mem_eq (s : App) (p : String) (h : p ∈ s.files) :
    App.addCurrentFile (some p) s = s := by
  simp [App.addCurrentFile, h]

/-- Membership after an add. -/
lemma mem_addCurrentFile_files (s : App) (p x : String) :
    x ∈ (App.addCurrentFile (some p) s).files ↔ x ∈ s.files ∨ x = p := by
  rw [addCurrentFile_files]
  by_cases h : p ∈ s.files
  · simp only [h, ite_true]
    constructor
    · exact fun hx => Or.inl hx
    · rintro (hx | rfl)
      · exact hx
      · exact h
  · simp [h]

/-- Adds preserve the no-duplicates invariant. -/
lemma nodup_addCurrentFile (s : App) (p : String) (h : s.files.Nodup) :
    (App.addCurrentFile (some p) s).files.Nodup := by
  rw [addCurrentFile_files]
  by_cases hm : p ∈ s.files
  · simpa [hm]
  · simp [hm, List.nodup_append, h]

/-- Membership after a sequence of adds: the initial contents plus the
offered paths. -/
lemma mem_addAll_files (ps : List String) (s : App) (x : String) :
    x ∈ (addAll s ps).files ↔ x ∈ s.files ∨ x ∈ ps := by
  induction ps generalizing s with
  | nil => simp [addAll]
  | cons p ps ih =>
    have : addAll s (p :: ps) = addAll (App.addCurrentFile (some p) s) ps := rfl
    rw [this, ih, mem_addCurrentFile_files]
    simp only [List.mem_cons]
    tauto

/-- Sequences of adds preserve the no-duplicates invariant. -/
lemma nodup_addAll_files (ps : List String) (s : App) (h : s.files.Nodup) :
    (addAll s ps).files.Nodup := by
  induction ps generalizing s with
  | nil => exact h
  | cons p ps ih => exact ih _ (nodup_addCurrentFile s p h)

/-- The resulting list enumerates exactly the distinct paths among the
initial contents and the offered paths. -/
lemma length_addAll_files (ps : List String) (s : App) (h : s.files.Nodup) :
    (addAll s ps).files.length = ((s.files ++ ps).dedup).length := by
  have hperm : (addAll s ps).files.Perm ((s.files ++ ps).dedup) := by
    rw [List.perm_ext_iff_of_nodup (nodup_addAll_files ps s h) (List.nodup_dedup _)]
    intro a
    rw [mem_addAll_files, List.mem_dedup, List.mem_append]
  exact hperm.length_eq

/-- Adding to an empty list selects index 0. -/
lemma addCurrentFile_empty_selected (s : App) (p : String) (h : s.files = []) :
    (App.addCurrentFile (some p) s).selected = some 0 := by
  simp [App.addCurrentFile, App.saveFiles, h]

/-- Adding a path twice in a row is the same as adding it once. -/
lemma addCurrentFile_idem (s : App) (p : String) :
    App.addCurrentFile (some p) (App.addCurrentFile (some p) s) =
      App.addCurrentFile (some p) s :=
  addCurrentFile_mem_eq _ p ((mem_addCurrentFile_files s p p).mpr (Or.inr rfl))

/-- C1 (amended): `add_current_file` appends exactly when the path is
absent and is a full no-op otherwise; adding to an empty list selects
index 0; from a duplicate-free list, any sequence of adds yields a
duplicate-free list whose length is the number of distinct paths among the
initial contents and the offered paths (so, from an empty list, the number
of distinct paths offered); adding twice in a row equals adding once. -/
theorem add_current_spec (s : App) (p : String) (ps : List String)
    (hnd : s.files.Nodup) :
    (p ∈ s.files → App.addCurrentFile (some p) s = s) ∧
    (p ∉ s.files → (App.addCurrentFile (some p) s).files = s.files ++ [p]) ∧
    (s.files = [] → (App.addCurrentFile (some p) s).selected = some 0) ∧
    (addAll s ps).files.Nodup ∧
    (addAll s ps).files.length = ((s.files ++ ps).dedup).length ∧
    App.addCurrentFile (some p) (App.addCurrentFile (some p) s) =
      App.addCurrentFile (some p) s := by
  refine ⟨addCurrentFile_mem_eq s p, ?_, addCurrentFile_empty_selected s p,
    nodup_addAll_files ps s hnd, length_addAll_files ps s hnd,
    addCurrentFile_idem s p⟩
  intro h
  rw [addCurrentFile_files, if_neg h]

/-- A concrete one-element duplicate-free starting state. -/
def cexApp : App :=
  { running := false, db := fun _ => none, selected := some 0,
    files := ["/x"], projectKey := "project_x" }

/-- C1 counterexample: starting from the duplicate-free list `["/x"]` and
offering the single distinct path `"/y"`, the resulting list has length 2,
not 1 = the number of distinct paths offered. -/
theorem add_current_length_cex :
    cexApp.files.Nodup ∧
    (addAll cexApp ["/y"]).files.length ≠ (["/y"] : List String).dedup.length :=
  ⟨by decide, by decide⟩

/-- C1 witness: the amended theorem applied to the concrete state. -/
theorem add_current_spec_witness :
    cexApp.files.Nodup ∧
    (addAll cexApp ["/y", "/y", "/x"]).files.length =
      ((cexApp.files ++ ["/y", "/y", "/x"]).dedup).length ∧
    App.addCurrentFile (some "/y") (App.addCurrentFile (some "/y") cexApp) =
      App.addCurrentFile (some "/y") cexApp :=
  ⟨by decide, (add_current_spec cexApp "/y" ["/y", "/y", "/x"] (by decide)).2.2.2.2.1,
    (add_current_spec cexApp "/y" ["/y", "/y", "/x"] (by decide)).2.2.2.2.2⟩

/-! ## Project key and startup -/

/-- The project key recorded at startup. -/
lemma new_projectKey (db : Store) (cwd : String) :
    (App.new db cwd).projectKey = sessionProjectKey cwd := by
  unfold App.new App.loadFiles
  split <;> rfl

/-- C9: the Project Key is a pure function of the working directory —
namespace tag `project_` plus the directory with `/` replaced by `_` —
and the direct invocation path and the interactive session compute the
identical key for the same working directory (`App::new` stores it in
`projectKey`). -/
theorem project_key_deterministic (cwd : String) (db : Store) :
    directProjectKey cwd = sessionProjectKey cwd ∧
    directProjectKey cwd = "project_" ++ String.replace cwd "/" "_" ∧
    (App.new db cwd).projectKey = sessionProjectKey cwd :=
  ⟨rfl, rfl, new_projectKey db cwd⟩

/-- C10: after startup, the cursor is `some 0` exactly when the loaded
list is non-empty, and stays `none` when no list is stored or the stored
list is empty. -/
theorem startup_cursor (db : Store) (cwd : String) :
    (db (sessionProjectKey cwd) = none →
      (App.new db cwd).files = [] ∧ (App.new db cwd).selected = none) ∧
    (∀ fs, db (sessionProjectKey cwd) = some fs →
      (App.new db cwd).files = fs ∧
      (App.new db cwd).selected = if fs.isEmpty then none else some 0) := by
  constructor
  · intro h
    simp [App.new, App.loadFiles, h]
  · intro fs h
    refine ⟨?_, ?_⟩ <;> simp [App.new, App.loadFiles, h]

/-- A concrete store holding a two-element list for directory `/w`. -/
def startupStore : Store :=
  fun k => if k = sessionProjectKey "/w" then some ["/a", "/b"] else none

/-- C10 witness: startup on the concrete store selects index 0. -/
theorem startup_cursor_witness :
    startupStore (sessionProjectKey "/w") = some ["/a", "/b"] ∧
    (App.new startupStore "/w").files = ["/a", "/b"] ∧
    (App.new startupStore "/w").selected = some 0 := by
  have h : startupStore (sessionProjectKey "/w") = some ["/a", "/b"] := by
    simp [startupStore]
  have h2 := (startup_cursor startupStore "/w").2 ["/a", "/b"] h
  exact ⟨h, h2.1, by rw [h2.2]; rfl⟩

/-! ## Helper lemmas: memory/disk synchronisation -/

/-- Changing only the cursor does not affect synchronisation. -/
lemma insync_selected (s : App) (x : Option Nat) (h : InSync s) :
    InSync { s with selected := x } := h

/-- Calling `save_files` synchronises whatever list is currently cached. -/
lemma insync_saveFiles (s : App) : InSync (App.saveFiles s) := by
  simp [InSync, App.saveFiles, storeSet]

/-- No controller operation changes the project key. -/
lemma applyOp_projectKey (s : App) (op : Op) :
    (App.applyOp s op).projectKey = s.projectKey := by
  cases op <;>
    simp only [App.applyOp, App.addCurrentFile, App.deleteSelectedFile, App.moveUp,
      App.moveDown, App.next, App.previous, App.saveFiles] <;>
    (repeat' split) <;> rfl

/-- Every controller operation leaves memory and disk synchronised. -/
lemma insync_applyOp (s : App) (op : Op) (h : InSync s) :
    InSync (App.applyOp s op) := by
  cases op with
  | add z =>
    cases z with
    | none => exact h
    | some p =>
      by_cases hm : p ∈ s.files
      · show InSync (App.addCurrentFile (some p) s)
        rw [addCurrentFile_mem_eq s p hm]
        exact h
      · show InSync (App.addCurrentFile (some p) s)
        unfold App.addCurrentFile
        dsimp only
        rw [if_neg hm]
        split
        · exact insync_selected _ _ (insync_saveFiles _)
        · exact insync_saveFiles _
  | delete =>
    show InSync (App.deleteSelectedFile s)
    unfold App.deleteSelectedFile
    split
    · exact h
    · split
      · dsimp only
        split
        · exact insync_selected _ _ (insync_saveFiles _)
        · split
          · exact insync_selected _ _ (insync_saveFiles _)
          · exact insync_saveFiles _
      · exact h
  | moveUp =>
    show InSync (App.moveUp s)
    unfold App.moveUp
    split
    · exact h
    · split
      · exact insync_saveFiles _
      · exact h
  | moveDown =>
    show InSync (App.moveDown s)
    unfold App.moveDown
    split
    · exact h
    · split
      · exact insync_saveFiles _
      · exact h
  | next =>
    show InSync (App.next s)
    unfold App.next
    split
    · exact h
    · exact insync_selected _ _ h
  | prev =>
    show InSync (App.previous s)
    unfold App.previous
    split
    · exact h
    · exact insync_selected _ _ h

/-- Synchronisation is preserved along any operation sequence. -/
lemma insync_foldl (ops : List Op) (s : App) (h : InSync s) :
    InSync (ops.foldl App.applyOp s) := by
  induction ops generalizing s with
  | nil => exact h
  | cons op ops ih => exact ih _ (insync_applyOp s op h)

/-- Startup loads exactly the stored list, so it is synchronised. -/
lemma insync_new (db : Store) (cwd : String) : InSync (App.new db cwd) := by
  unfold InSync App.new App.loadFiles
  cases h : db (sessionProjectKey cwd) <;> simp [h]

/-- Operation sequences preserve the project key. -/
lemma foldl_projectKey (ops : List Op) (s : App) :
    (ops.foldl App.applyOp s).projectKey = s.projectKey := by
  induction ops generalizing s with
  | nil => rfl
  | cons op ops ih => rw [List.foldl_cons, ih, applyOp_projectKey]

/-- Reopening the store of a synchronised state recovers its list. -/
lemma insync_reopen (s : App) (cwd : String) (h : InSync s)
    (hk : s.projectKey = sessionProjectKey cwd) :
    (App.new s.db cwd).files = s.files := by
  unfold InSync at h
  rw [hk] at h
  unfold App.new App.loadFiles
  cases hdb : s.db (sessionProjectKey cwd) with
  | none =>
    dsimp only
    rw [hdb] at h
    exact h.symm
  | some fs =>
    dsimp only
    rw [hdb] at h
    exact h.symm

/-- C2: every mutating operation saves the full current list under the
project key before returning, so after any sequence of controller
operations the cached list equals the stored list, and reopening the
resulting store for the same working directory (hence the same Project
Key) loads a list structurally equal to the in-memory list. -/
theorem persistence_roundtrip (db : Store) (cwd : String) (ops : List Op) :
    InSync (ops.foldl App.applyOp (App.new db cwd)) ∧
    (App.new (ops.foldl App.applyOp (App.new db cwd)).db cwd).files =
      (ops.foldl App.applyOp (App.new db cwd)).files := by
  have h1 : InSync (ops.foldl App.applyOp (App.new db cwd)) :=
    insync_foldl ops _ (insync_new db cwd)
  refine ⟨h1, insync_reopen _ cwd h1 ?_⟩
  rw [foldl_projectKey, new_projectKey]

/-! ## Helper lemmas: the Selection Cursor invariant -/

/-- The invariant holds at startup, whatever is stored. -/
lemma inv_new (db : Store) (cwd : String) : Inv (App.new db cwd) := by
  unfold Inv App.new App.loadFiles
  dsimp only
  cases h : db (sessionProjectKey cwd) with
  | none => rfl
  | some fs =>
    dsimp only
    cases fs with
    | nil => simp
    | cons a l => simp


/-! ## Characterization lemmas for each operation -/

/-- Invariant introduction when nothing is selected. -/
lemma inv_none (s : App) (hsel : s.selected = none) (hf : s.files = []) : Inv s := by
  unfold Inv
  rw [hsel]
  exact hf

/-- Invariant introduction for a valid selected index. -/
lemma inv_some (s : App) (i : Nat) (hsel : s.selected = some i)
    (hlt : i < s.files.length) : Inv s := by
  unfold Inv
  rw [hsel]
  exact hlt

/-- Invariant elimination. -/
lemma inv_cases (s : App) (h : Inv s) :
    (s.selected = none ∧ s.files = []) ∨
      (∃ i, s.selected = some i ∧ i < s.files.length) := by
  unfold Inv at h
  cases hsel : s.selected with
  | none =>
    rw [hsel] at h
    exact Or.inl ⟨rfl, h⟩
  | some i =>
    rw [hsel] at h
    exact Or.inr ⟨i, rfl, h⟩

/-- Adding to an empty list: one-element list, cursor on index 0. -/
lemma addCurrentFile_push_empty (s : App) (p : String) (hf : s.files = []) :
    App.addCurrentFile (some p) s =
      { s with files := [p], db := storeSet s.db s.projectKey [p],
               selected := some 0 } := by
  simp [App.addCurrentFile, App.saveFiles, hf]

/-- Adding a new path to a non-empty list: append, cursor untouched. -/
lemma addCurrentFile_push_nonempty (s : App) (p : String) (h : p ∉ s.files)
    (hf : s.files ≠ []) :
    App.addCurrentFile (some p) s =
      { s with files := s.files ++ [p],
               db := storeSet s.db s.projectKey (s.files ++ [p]) } := by
  have hlen : ¬((s.files ++ [p]).length = 1) := by
    rw [List.length_append, List.length_singleton]
    have := List.length_pos.mpr hf
    omega
  simp [App.addCurrentFile, App.saveFiles, h, hlen, hf]

/-- Delete with no selection is a no-op. -/
lemma deleteSelectedFile_none (s : App) (hsel : s.selected = none) :
    App.deleteSelectedFile s = s := by
  simp only [App.deleteSelectedFile, hsel]

/-- Delete with a valid selection: remove, save, re-clamp the cursor. -/
lemma deleteSelectedFile_some (s : App) (i : Nat) (hsel : s.selected = some i)
    (hi : i < s.files.length) :
    App.deleteSelectedFile s =
      { s with files := s.files.eraseIdx i,
               db := storeSet s.db s.projectKey (s.files.eraseIdx i),
               selected :=
                 if s.files.length - 1 = 0 then none
                 else if s.files.length - 1 ≤ i then some (s.files.length - 1 - 1)
                 else some i } := by
  have hlen : (s.files.eraseIdx i).length = s.files.length - 1 :=
    List.length_eraseIdx_of_lt hi
  simp only [App.deleteSelectedFile, hsel, hi, ite_true, App.saveFiles,
    List.isEmpty_iff, ← List.length_eq_zero, hlen]
  by_cases h1 : s.files.length - 1 = 0
  · simp [h1]
  · by_cases h2 : s.files.length - 1 ≤ i
    · simp [h1, h2]
    · simp [h1, h2]

/-- Moving up with no selection is a no-op. -/
lemma moveUp_none (s : App) (hsel : s.selected = none) : App.moveUp s = s := by
  simp only [App.moveUp, hsel]

/-- Moving up at index 0 is a no-op. -/
lemma moveUp_zero (s : App) (hsel : s.selected = some 0) : App.moveUp s = s := by
  simp [App.moveUp, hsel]

/-- Moving up at a positive index swaps upward and the cursor follows. -/
lemma moveUp_pos (s : App) (i : Nat) (hsel : s.selected = some i) (hpos : 0 < i) :
    App.moveUp s =
      { s with files := listSwap s.files i (i - 1),
               db := storeSet s.db s.projectKey (listSwap s.files i (i - 1)),
               selected := some (i - 1) } := by
  simp only [App.moveUp, hsel, hpos, ite_true, App.saveFiles]

/-- Moving down with no selection is a no-op. -/
lemma moveDown_none (s : App) (hsel : s.selected = none) : App.moveDown s = s := by
  simp only [App.moveDown, hsel]

/-- Moving down at the last index (or beyond) is a no-op. -/
lemma moveDown_last (s : App) (i : Nat) (hsel : s.selected = some i)
    (hlast : ¬(i < s.files.length - 1)) : App.moveDown s = s := by
  simp only [App.moveDown, hsel, hlast, ite_false]

/-- Moving down strictly before the last index swaps downward and the
cursor follows. -/
lemma moveDown_mid (s : App) (i : Nat) (hsel : s.selected = some i)
    (hmid : i < s.files.length - 1) :
    App.moveDown s =
      { s with files := listSwap s.files i (i + 1),
               db := storeSet s.db s.projectKey (listSwap s.files i (i + 1)),
               selected := some (i + 1) } := by
  simp only [App.moveDown, hsel, hmid, ite_true, App.saveFiles]

/-- Advancing on an empty list is a no-op. -/
lemma next_empty (s : App) (h : s.files = []) : App.next s = s := by
  simp [App.next, h]

/-- Advancing with a selection on a non-empty list. -/
lemma next_some (s : App) (i : Nat) (hsel : s.selected = some i)
    (hne : s.files ≠ []) :
    App.next s =
      { s with selected := some (if s.files.length - 1 ≤ i then 0 else i + 1) } := by
  simp only [App.next, List.isEmpty_iff, hne, ite_false, hsel]

/-- Retreating on an empty list is a no-op. -/
lemma previous_empty (s : App) (h : s.files = []) : App.previous s = s := by
  simp [App.previous, h]

/-- Retreating with a selection on a non-empty list. -/
lemma previous_some (s : App) (i : Nat) (hsel : s.selected = some i)
    (hne : s.files ≠ []) :
    App.previous s =
      { s with selected := some (if i = 0 then s.files.length - 1 else i - 1) } := by
  simp only [App.previous, List.isEmpty_iff, hne, ite_false, hsel]

/-- The swap of two in-range indices keeps the length. -/
lemma listSwap_length (l : List String) (i j : Nat) :
    (listSwap l i j).length = l.length := by
  simp [listSwap]


/-! ## C4: the cursor invariant on reachable states -/

/-- Every controller operation preserves the cursor invariant. -/
lemma inv_applyOp (s : App) (op : Op) (h : Inv s) : Inv (App.applyOp s op) := by
  rcases inv_cases s h with ⟨hsel, hf⟩ | ⟨i, hsel, hlt⟩
  · cases op with
    | add z =>
      cases z with
      | none => exact h
      | some p =>
        show Inv (App.addCurrentFile (some p) s)
        rw [addCurrentFile_push_empty s p hf]
        exact inv_some _ 0 rfl (by simp)
    | delete =>
      show Inv (App.deleteSelectedFile s)
      rw [deleteSelectedFile_none s hsel]
      exact h
    | moveUp =>
      show Inv (App.moveUp s)
      rw [moveUp_none s hsel]
      exact h
    | moveDown =>
      show Inv (App.moveDown s)
      rw [moveDown_none s hsel]
      exact h
    | next =>
      show Inv (App.next s)
      rw [next_empty s hf]
      exact h
    | prev =>
      show Inv (App.previous s)
      rw [previous_empty s hf]
      exact h
  · have hne : s.files ≠ [] := by
      intro hh
      rw [hh] at hlt
      exact absurd hlt (by simp)
    cases op with
    | add z =>
      cases z with
      | none => exact h
      | some p =>
        show Inv (App.addCurrentFile (some p) s)
        by_cases hm : p ∈ s.files
        · rw [addCurrentFile_mem_eq s p hm]
          exact h
        · rw [addCurrentFile_push_nonempty s p hm hne]
          refine inv_some _ i hsel ?_
          show i < (s.files ++ [p]).length
          rw [List.length_append]
          omega
    | delete =>
      show Inv (App.deleteSelectedFile s)
      rw [deleteSelectedFile_some s i hsel hlt]
      by_cases h1 : s.files.length - 1 = 0
      · refine inv_none _ ?_ ?_
        · simp [h1]
        · have hz : (s.files.eraseIdx i).length = 0 := by
            rw [List.length_eraseIdx_of_lt hlt]
            exact h1
          exact List.length_eq_zero.mp hz
      · by_cases h2 : s.files.length - 1 ≤ i
        · refine inv_some _ (s.files.length - 1 - 1) ?_ ?_
          · simp [h1, h2]
          · show s.files.length - 1 - 1 < (s.files.eraseIdx i).length
            rw [List.length_eraseIdx_of_lt hlt]
            omega
        · refine inv_some _ i ?_ ?_
          · simp [h1, h2]
          · show i < (s.files.eraseIdx i).length
            rw [List.length_eraseIdx_of_lt hlt]
            omega
    | moveUp =>
      show Inv (App.moveUp s)
      by_cases hz : i = 0
      · subst hz
        rw [moveUp_zero s hsel]
        exact h
      · rw [moveUp_pos s i hsel (Nat.pos_of_ne_zero hz)]
        refine inv_some _ (i - 1) rfl ?_
        show i - 1 < (listSwap s.files i (i - 1)).length
        rw [listSwap_length]
        omega
    | moveDown =>
      show Inv (App.moveDown s)
      by_cases hl : i < s.files.length - 1
      · rw [moveDown_mid s i hsel hl]
        refine inv_some _ (i + 1) rfl ?_
        show i + 1 < (listSwap s.files i (i + 1)).length
        rw [listSwap_length]
        omega
      · rw [moveDown_last s i hsel hl]
        exact h
    | next =>
      show Inv (App.next s)
      rw [next_some s i hsel hne]
      refine inv_some _ _ rfl ?_
      show (if s.files.length - 1 ≤ i then 0 else i + 1) < s.files.length
      split
      · exact List.length_pos.mpr hne
      · omega
    | prev =>
      show Inv (App.previous s)
      rw [previous_some s i hsel hne]
      refine inv_some _ _ rfl ?_
      show (if i = 0 then s.files.length - 1 else i - 1) < s.files.length
      have := List.length_pos.mpr hne
      split <;> omega

/-- C4: the Selection Cursor invariant — `none` exactly on the empty list,
otherwise a valid index — holds in every state reachable from startup
through any sequence of controller operations. -/
theorem cursor_invariant (db : Store) (cwd : String) (s : App)
    (hs : Reachable db cwd s) : Inv s := by
  induction hs with
  | init => exact inv_new db cwd
  | step hs op ih => exact inv_applyOp _ op ih

/-- C4 witness: the invariant, instantiated one step after startup on an
empty store. -/
theorem cursor_invariant_witness :
    Inv (App.applyOp (App.new (fun _ => none) "/w") (Op.add (some "/a"))) :=
  cursor_invariant (fun _ => none) "/w" _
    (Reachable.step Reachable.init (Op.add (some "/a")))


/-! ## C3: delete semantics -/

/-- C3: `delete_selected_file` removes the entry at the cursor when one
exists (no-op when the cursor is `none`); afterwards the cursor becomes
`none` if the list is now empty, moves to the new last index if it pointed
at the last element, and is unchanged otherwise; deleting from a
one-element list yields the empty list and no cursor. -/
theorem delete_selected_spec (s : App) (hinv : Inv s) :
    (s.selected = none → App.deleteSelectedFile s = s) ∧
    (∀ i, s.selected = some i →
      (App.deleteSelectedFile s).files = s.files.eraseIdx i ∧
      ((App.deleteSelectedFile s).files = [] →
        (App.deleteSelectedFile s).selected = none) ∧
      ((App.deleteSelectedFile s).files ≠ [] →
        (App.deleteSelectedFile s).selected =
          if i = s.files.length - 1 then some (s.files.length - 2)
          else some i)) ∧
    (∀ p, s.files = [p] →
      (App.deleteSelectedFile s).files = [] ∧
      (App.deleteSelectedFile s).selected = none) := by
  refine ⟨deleteSelectedFile_none s, ?_, ?_⟩
  · intro i hsel
    have hlt : i < s.files.length := by
      rcases inv_cases s hinv with ⟨hn, _⟩ | ⟨j, hj, hltj⟩
      · rw [hn] at hsel
        cases hsel
      · have hji : j = i := by
          have := hj.symm.trans hsel
          injection this
        rw [hji] at hltj
        exact hltj
    have hlen : (s.files.eraseIdx i).length = s.files.length - 1 :=
      List.length_eraseIdx_of_lt hlt
    rw [deleteSelectedFile_some s i hsel hlt]
    refine ⟨rfl, ?_, ?_⟩
    · intro hempty
      have h0 : s.files.length - 1 = 0 := by
        rw [← hlen]
        exact List.length_eq_zero.mpr hempty
      simp [h0]
    · intro hne
      have hne2 : s.files.eraseIdx i ≠ [] := hne
      have h0 : ¬(s.files.length - 1 = 0) := by
        have := List.length_pos.mpr hne2
        rw [hlen] at this
        omega
      by_cases hlast : i = s.files.length - 1
      · have hle : s.files.length - 1 ≤ i := le_of_eq hlast.symm
        have h11 : s.files.length - 1 - 1 = s.files.length - 2 := by omega
        simp [h0, hle, hlast, h11]
      · have hle : ¬(s.files.length - 1 ≤ i) := by omega
        simp [h0, hle, hlast]
  · intro p hp
    rcases inv_cases s hinv with ⟨hn, hf⟩ | ⟨j, hj, hltj⟩
    · rw [hp] at hf
      exact absurd hf (by simp)
    · have hj0 : j = 0 := by
        rw [hp] at hltj
        simpa using hltj
      subst hj0
      rw [deleteSelectedFile_some s 0 hj (by rw [hp]; simp)]
      constructor
      · show s.files.eraseIdx 0 = []
        rw [hp]
        rfl
      · show (if s.files.length - 1 = 0 then none
          else if s.files.length - 1 ≤ 0 then some (s.files.length - 1 - 1)
          else some 0) = none
        rw [hp]
        rfl

/-- A concrete one-element state with the cursor on its only entry. -/
def c3App : App :=
  { running := true, db := fun _ => none, selected := some 0,
    files := ["/a"], projectKey := "project_w" }

/-- C3 witness: deleting from the one-element list empties it and clears
the cursor. -/
theorem delete_selected_spec_witness :
    Inv c3App ∧
    (App.deleteSelectedFile c3App).files = [] ∧
    (App.deleteSelectedFile c3App).selected = none :=
  have hinv : Inv c3App := inv_some c3App 0 rfl (by decide)
  ⟨hinv, ((delete_selected_spec c3App hinv).2.2 "/a" rfl).1,
    ((delete_selected_spec c3App hinv).2.2 "/a" rfl).2⟩


/-! ## C5: wraparound navigation -/

/-- Iterating `next` rotates a valid cursor by the iteration count,
modulo the list length. -/
lemma next_iterate (s : App) (i : Nat) (hsel : s.selected = some i)
    (hlt : i < s.files.length) :
    ∀ k, App.next^[k] s =
      { s with selected := some ((i + k) % s.files.length) } := by
  intro k
  induction k with
  | zero =>
    rw [Function.iterate_zero_apply, Nat.add_zero, Nat.mod_eq_of_lt hlt, ← hsel]
  | succ k ih =>
    have hn : 0 < s.files.length := Nat.lt_of_le_of_lt (Nat.zero_le i) hlt
    have hm : (i + k) % s.files.length < s.files.length := Nat.mod_lt _ hn
    have hne : s.files ≠ [] := List.length_pos.mp hn
    rw [Function.iterate_succ_apply', ih,
      next_some { s with selected := some ((i + k) % s.files.length) }
        ((i + k) % s.files.length) rfl hne]
    have key : (i + (k + 1)) % s.files.length =
        ((i + k) % s.files.length + 1) % s.files.length := by
      rw [← Nat.add_assoc, Nat.add_mod (i + k) 1,
        Nat.add_mod ((i + k) % s.files.length) 1, Nat.mod_eq_of_lt hm]
    rw [key]
    by_cases hc : s.files.length - 1 ≤ (i + k) % s.files.length
    · have hend : (i + k) % s.files.length + 1 = s.files.length := by omega
      rw [if_pos hc, hend, Nat.mod_self]
    · have hmid : (i + k) % s.files.length + 1 < s.files.length := by omega
      rw [if_neg hc, Nat.mod_eq_of_lt hmid]

/-- C5: `next`/`previous` wrap around — `next` from the last index goes to
0, `previous` from 0 goes to the last index — both are no-ops on the empty
list, and `next` applied `length` times returns the whole state to where
it started. -/
theorem select_wraparound (s : App) (i : Nat) (hinv : Inv s) :
    (s.files = [] → App.next s = s ∧ App.previous s = s) ∧
    (s.selected = some i →
      (App.next s).selected = some ((i + 1) % s.files.length) ∧
      (App.next s).files = s.files ∧
      (App.previous s).selected =
        some ((i + s.files.length - 1) % s.files.length) ∧
      (App.previous s).files = s.files ∧
      App.next^[s.files.length] s = s) := by
  constructor
  · intro hf
    exact ⟨next_empty s hf, previous_empty s hf⟩
  · intro hsel
    have hlt : i < s.files.length := by
      rcases inv_cases s hinv with ⟨hn, _⟩ | ⟨j, hj, hltj⟩
      · rw [hn] at hsel
        cases hsel
      · have hji : j = i := by
          have := hj.symm.trans hsel
          injection this
        rw [hji] at hltj
        exact hltj
    have hn : 0 < s.files.length := Nat.lt_of_le_of_lt (Nat.zero_le i) hlt
    have hne : s.files ≠ [] := List.length_pos.mp hn
    refine ⟨?_, ?_, ?_, ?_, ?_⟩
    · rw [next_some s i hsel hne]
      show some (if s.files.length - 1 ≤ i then 0 else i + 1) =
        some ((i + 1) % s.files.length)
      by_cases hc : s.files.length - 1 ≤ i
      · have hend : i + 1 = s.files.length := by omega
        rw [if_pos hc, hend, Nat.mod_self]
      · rw [if_neg hc, Nat.mod_eq_of_lt (by omega)]
    · rw [next_some s i hsel hne]
    · rw [previous_some s i hsel hne]
      show some (if i = 0 then s.files.length - 1 else i - 1) =
        some ((i + s.files.length - 1) % s.files.length)
      by_cases hz : i = 0
      · rw [if_pos hz, hz, Nat.zero_add, Nat.mod_eq_of_lt (by omega)]
      · have hrot : i + s.files.length - 1 = (i - 1) + s.files.length := by omega
        rw [if_neg hz, hrot, Nat.add_mod_right, Nat.mod_eq_of_lt (by omega)]
    · rw [previous_some s i hsel hne]
    · rw [next_iterate s i hsel hlt s.files.length, Nat.add_mod_right,
        Nat.mod_eq_of_lt hlt, ← hsel]

/-- A concrete three-element state with the cursor on index 1. -/
def c5App : App :=
  { running := true, db := fun _ => none, selected := some 1,
    files := ["/a", "/b", "/c"], projectKey := "project_w" }

/-- C5 witness: advancing once from index 1 of three reaches index 2, and
three advances return the state to where it started. -/
theorem select_wraparound_witness :
    Inv c5App ∧
    (App.next c5App).selected = some 2 ∧
    App.next^[3] c5App = c5App :=
  have hinv : Inv c5App := inv_some c5App 1 rfl (by decide)
  have h := (select_wraparound c5App 1 hinv).2 rfl
  ⟨hinv, by rw [h.1]; rfl, h.2.2.2.2⟩


/-! ## C6 and C7: reordering -/

/-- C6: `move_up` at index 0 and `move_down` at the last index are no-ops
(whole state unchanged); away from the boundary the selected entry swaps
with its neighbour and the cursor follows it. -/
theorem move_selected_spec (s : App) (i : Nat) (hinv : Inv s) :
    (s.selected = some 0 → App.moveUp s = s) ∧
    (s.selected = some (s.files.length - 1) → App.moveDown s = s) ∧
    (s.selected = some i → 0 < i →
      (App.moveUp s).files = listSwap s.files i (i - 1) ∧
      (App.moveUp s).selected = some (i - 1) ∧
      (App.moveUp s).files[i - 1]? = s.files[i]?) ∧
    (s.selected = some i → i + 1 < s.files.length →
      (App.moveDown s).files = listSwap s.files i (i + 1) ∧
      (App.moveDown s).selected = some (i + 1) ∧
      (App.moveDown s).files[i + 1]? = s.files[i]?) := by
  refine ⟨moveUp_zero s, ?_, ?_, ?_⟩
  · intro hsel
    exact moveDown_last s _ hsel (lt_irrefl _)
  · intro hsel hpos
    have hlt : i < s.files.length := by
      rcases inv_cases s hinv with ⟨hn, _⟩ | ⟨j, hj, hltj⟩
      · rw [hn] at hsel
        cases hsel
      · have hji : j = i := by
          have := hj.symm.trans hsel
          injection this
        rw [hji] at hltj
        exact hltj
    rw [moveUp_pos s i hsel hpos]
    refine ⟨rfl, rfl, ?_⟩
    show (listSwap s.files i (i - 1))[i - 1]? = s.files[i]?
    rw [listSwap, List.getElem?_set_self (by rw [List.length_set]; omega),
      List.getD_eq_getElem?_getD, List.getElem?_eq_getElem hlt]
    rfl
  · intro hsel hlt1
    rw [moveDown_mid s i hsel (by omega)]
    refine ⟨rfl, rfl, ?_⟩
    show (listSwap s.files i (i + 1))[i + 1]? = s.files[i]?
    have hlt : i < s.files.length := by omega
    rw [listSwap, List.getElem?_set_self (by rw [List.length_set]; omega),
      List.getD_eq_getElem?_getD, List.getElem?_eq_getElem hlt]
    rfl

/-- A concrete three-element state with the cursor on index 1. -/
def c6App : App :=
  { running := true, db := fun _ => none, selected := some 1,
    files := ["/a", "/b", "/c"], projectKey := "project_w" }

/-- C6 witness: moving index 1 up swaps it with index 0 and the cursor
follows the moved entry. -/
theorem move_selected_spec_witness :
    Inv c6App ∧
    (App.moveUp c6App).files = ["/b", "/a", "/c"] ∧
    (App.moveUp c6App).selected = some 0 :=
  have hinv : Inv c6App := inv_some c6App 1 rfl (by decide)
  have h := (move_selected_spec c6App 1 hinv).2.2.1 rfl one_pos
  ⟨hinv, by rw [h.1]; rfl, by rw [h.2.1]⟩

/-- The scenario state: list `["/a","/b","/c"]`, cursor at index 2. -/
def c7App : App :=
  { running := true, db := fun _ => none, selected := some 2,
    files := ["/a", "/b", "/c"], projectKey := "project_w" }

/-- C7: two shifted-K presses on `["/a","/b","/c"]` with the cursor at
index 2 produce `["/c","/a","/b"]` with the cursor at index 0. -/
theorem scenario_shiftK_twice :
    (App.onKeyEvent none (App.onKeyEvent none c7App Key.shiftK) Key.shiftK).files =
      ["/c", "/a", "/b"] ∧
    (App.onKeyEvent none (App.onKeyEvent none c7App Key.shiftK) Key.shiftK).selected =
      some 0 := by
  constructor
  · rfl
  · rfl


/-! ## C8: the direct invocation path -/

/-- C8: the direct invocation path never mutates the store, and every
"not found" condition returns a plain message with exit code 0: missing
database file, missing project entry, and an out-of-range index (reported
as `File N not found (only M files saved)` with the 1-based requested
position); otherwise it launches the entry at the requested index. -/
theorem open_by_index_spec (db : Store) (cwd : String) (index : Nat)
    (launch : String → Except String Unit) :
    (openFileByIndex none cwd index launch =
        .ok (.message "No files saved yet", none) ∧
      exitCode (openFileByIndex none cwd index launch) = 0) ∧
    (db (directProjectKey cwd) = none →
      openFileByIndex (some db) cwd index launch =
        .ok (.message "No files saved for this project", some db) ∧
      exitCode (openFileByIndex (some db) cwd index launch) = 0) ∧
    (∀ files, db (directProjectKey cwd) = some files → files.length ≤ index →
      openFileByIndex (some db) cwd index launch =
        .ok (.message (notFoundMsg (index + 1) files.length), some db) ∧
      exitCode (openFileByIndex (some db) cwd index launch) = 0) ∧
    (∀ files, db (directProjectKey cwd) = some files → index < files.length →
      launch (files.getD index "") = .ok () →
      openFileByIndex (some db) cwd index launch =
        .ok (.launched (files.getD index ""), some db)) ∧
    (∀ out st, openFileByIndex (some db) cwd index launch = .ok (out, st) →
      st = some db) := by
  refine ⟨⟨rfl, rfl⟩, ?_, ?_, ?_, ?_⟩
  · intro h
    constructor
    · simp [openFileByIndex, h]
    · simp [openFileByIndex, h, exitCode]
  · intro files h hle
    constructor
    · simp [openFileByIndex, h, hle]
    · simp [openFileByIndex, h, hle, exitCode]
  · intro files h hlt hlaunch
    have hnle : ¬(files.length ≤ index) := Nat.not_le.mpr hlt
    unfold openFileByIndex
    dsimp only
    rw [h]
    dsimp only
    rw [if_neg hnle, hlaunch]
  · intro out st hok
    revert hok
    unfold openFileByIndex
    dsimp only
    cases hdb : db (directProjectKey cwd) with
    | none =>
      dsimp only
      intro hok
      simp only [Except.ok.injEq, Prod.mk.injEq] at hok
      exact hok.2.symm
    | some files =>
      dsimp only
      by_cases hle : files.length ≤ index
      · rw [if_pos hle]
        intro hok
        simp only [Except.ok.injEq, Prod.mk.injEq] at hok
        exact hok.2.symm
      · rw [if_neg hle]
        cases hl : launch (files.getD index "") with
        | ok u =>
          dsimp only
          intro hok
          simp only [Except.ok.injEq, Prod.mk.injEq] at hok
          exact hok.2.symm
        | error e =>
          dsimp only
          intro hok
          cases hok

/-- A concrete store with two files saved for project `/demo`. -/
def demoStore : Store :=
  fun k => if k = directProjectKey "/demo" then some ["/a", "/b"] else none

/-- C8 witness: subcommand `3` (index 2) against the two-entry list prints
`File 3 not found (only 2 files saved)`, exits 0 and leaves the store as
it was. -/
theorem open_by_index_spec_witness :
    demoStore (directProjectKey "/demo") = some ["/a", "/b"] ∧
    (["/a", "/b"] : List String).length ≤ 2 ∧
    openFileByIndex (some demoStore) "/demo" 2 (fun _ => .ok ()) =
      .ok (.message "File 3 not found (only 2 files saved)", some demoStore) ∧
    exitCode (openFileByIndex (some demoStore) "/demo" 2 (fun _ => .ok ())) = 0 := by
  have hdb : demoStore (directProjectKey "/demo") = some ["/a", "/b"] := by
    simp [demoStore]
  have h := (open_by_index_spec demoStore "/demo" 2 (fun _ => .ok ())).2.2.1
    ["/a", "/b"] hdb (by decide)
  refine ⟨hdb, by decide, ?_, h.2⟩
  rw [h.1]
  rfl

end Javelin
